import Mathlib

/-!
Shallow embedding of the arXiv daily-news ranking/caching engine
(`main-.py`): the `PaperManager` class with its fetch-and-merge corpus
builders, TTL cache gate, trending-keyword and author-activity analysis,
hot/rising scoring, sorting and pagination.

Conventions of the embedding:
* Python strings are `String`; `str.lower()` is `pyLower` (ASCII case
  folding, as `Char.toLower`), `str.split()` with no argument is `pyWords`
  (split on whitespace runs, dropping empty tokens), and the substring
  test `needle in hay` is `pyContainsSub`.
* A Python `dict` is an insertion-ordered association list: inserting an
  existing key updates the value in place, a new key is appended at the
  end (`dictInsert`); `dict.values()` is `List.map Prod.snd`.
* Timestamps (`time.time()`, `paper.published`) are rationals counting
  seconds; `timedelta.days` is the floor of the difference divided by
  86400.  `float` arithmetic is idealised over `ℝ`/`ℚ`.
* `sorted(xs, key=k, reverse=True)` is the stable `List.mergeSort` with
  the comparison `fun a b => k b ≤ k a`: this is sorted descending by the
  key and keeps the original order of key-equal elements, exactly as
  Python's stable sort with `reverse=True` does.
* The two fetch threads only write disjoint fields and are joined before
  any read, so a refresh is modelled as the equivalent sequential update;
  network results are passed in as one list of records per partition
  query.  HTML rendering is abstracted to the list of records on the
  current page.
-/

namespace ArxivDaily

/-- Model of Python `str.lower()` (ASCII case folding per character). -/
def pyLower (s : String) : String :=
  ⟨s.data.map Char.toLower⟩

/-- Accumulator-based scanner behind `pyWords`: `cur` holds the current
in-progress word reversed. -/
def pyWordsGo : List Char → List Char → List (List Char)
  | [], cur => if cur.isEmpty then [] else [cur.reverse]
  | c :: t, cur =>
    if c.isWhitespace then
      (if cur.isEmpty then pyWordsGo t [] else cur.reverse :: pyWordsGo t [])
    else pyWordsGo t (c :: cur)

/-- Model of Python `str.split()` with no separator: split on runs of
whitespace, with no empty tokens. -/
def pyWords (s : String) : List String :=
  (pyWordsGo s.data []).map String.mk

/-- Character-list substring occurrence test, scanning every start
position of the haystack. -/
def charsContainSub (needle : List Char) : List Char → Bool
  | [] => needle.isEmpty
  | c :: t => needle.isPrefixOf (c :: t) || charsContainSub needle t

/-- Model of the Python substring test `needle in hay`. -/
def pyContainsSub (hay needle : String) : Bool :=
  charsContainSub needle.data hay.data

/-- Insertion-ordered dictionary insert: an existing key keeps its
position and gets the new value, a fresh key is appended at the end. -/
def dictInsert {β : Type} : List (String × β) → String → β → List (String × β)
  | [], k, v => [(k, v)]
  | (k1, v1) :: t, k, v =>
    if k1 = k then (k, v) :: t else (k1, v1) :: dictInsert t k v

/-- Dictionary lookup on the association-list model. -/
def dictGet {β : Type} : List (String × β) → String → Option β
  | [], _ => none
  | (k1, v1) :: t, k => if k1 = k then some v1 else dictGet t k

/-- Key sequence of the dictionary, in insertion order. -/
def dictKeys {β : Type} (d : List (String × β)) : List String :=
  d.map Prod.fst

/-- One author entry of a record (`author.name` in the source). -/
structure Author where
  name : String

/-- One arXiv record as used by `PaperManager`: identifier, title,
abstract (`summary`), author list, publication timestamp (seconds, UTC),
category labels and an optional PDF link. -/
structure Paper where
  entry_id : String
  title : String
  summary : String
  authors : List Author
  published : ℚ
  categories : List String
  pdf_url : Option String

/-- Lower-cased concatenation `(paper.title + ' ' + paper.summary).lower()`
shared by the keyword extraction and both scores. -/
def paperText (p : Paper) : String :=
  pyLower (p.title ++ " " ++ p.summary)

/-- Whitespace tokens of `paperText`, i.e. `text.split()` in the source. -/
def paperWords (p : Paper) : List String :=
  pyWords (paperText p)

/-- Age of a record in whole days at time `now`, clamped at zero:
`max(time_diff.days, 0)` where `timedelta.days` floors. -/
def ageDays (now : ℚ) (p : Paper) : ℕ :=
  (max ⌊(now - p.published) / 86400⌋ 0).toNat

/-- Increment step of the `defaultdict(int)` keyword counter. -/
def dictIncr (d : List (String × ℕ)) (w : String) : List (String × ℕ) :=
  dictInsert d w ((dictGet d w).getD 0 + 1)

/-- Keyword frequency table of `calculate_trending_keywords`: for every
record, every token of the lower-cased title+abstract that is longer than
4 characters is counted, first-seen keys keeping their insertion order. -/
def keyword_counts (papers : List Paper) : List (String × ℕ) :=
  papers.foldl
    (fun d p =>
      (paperWords p).foldl
        (fun d w => if 4 < w.length then dictIncr d w else d) d)
    []

/-- Model of `calculate_trending_keywords`: sort the frequency table by
count descending (stable, so first-seen keys win ties) and keep the first
50 keywords. -/
def calculate_trending_keywords (papers : List Paper) : List String :=
  ((keyword_counts papers).mergeSort (fun a b => decide (b.2 ≤ a.2))).take 50
    |>.map Prod.fst

/-- Model of `calculate_author_activity`: increment the running
`author_publication_counts` once per author entry of every record in the
historical corpus.  Note that the source increments the instance-level
`defaultdict` that is never cleared, so the previous table is the first
argument. -/
def calculate_author_activity (counts : String → ℕ) (papers : List Paper) :
    String → ℕ :=
  papers.foldl
    (fun f p =>
      p.authors.foldl (fun f a => Function.update f a.name (f a.name + 1)) f)
    counts

/-- Author-activity component of the hot score: sum of publication counts
over the record's authors. -/
def author_activity_score (counts : String → ℕ) (p : Paper) : ℕ :=
  (p.authors.map (fun a => counts a.name)).sum

/-- Keyword component of the hot score: the number of trending keywords
occurring as substrings of the lower-cased title+abstract. -/
def keyword_score (trending : List String) (p : Paper) : ℕ :=
  trending.countP (fun keyword => pyContainsSub (paperText p) keyword)

/-- Model of `calculate_score` (the hot score):
`(author_activity_score + keyword_score) / (time_diff_days + 7) ** 1.5`. -/
noncomputable def calculate_score (trending : List String)
    (counts : String → ℕ) (now : ℚ) (p : Paper) : ℝ :=
  ((author_activity_score counts p + keyword_score trending p : ℕ) : ℝ) /
    (((ageDays now p : ℕ) : ℝ) + 7) ^ (1.5 : ℝ)

/-- Model of `calculate_rising_score`: number of tokens outside the
trending set, divided by `time_diff_days + 1`. -/
def calculate_rising_score (trending : List String) (now : ℚ) (p : Paper) :
    ℚ :=
  (((paperWords p).toFinset \ trending.toFinset).card : ℚ) /
    ((ageDays now p : ℕ) + 1)

/-- Merge the per-partition query results into one identifier-keyed
dictionary, later insertions of an identifier overwriting earlier ones. -/
def mergePartitions (results : List (List Paper)) : List (String × Paper) :=
  results.foldl
    (fun d ps => ps.foldl (fun d p => dictInsert d p.entry_id p) d)
    []

/-- Model of `fetch_past_papers`: values of the merged dictionary over the
partition queries for the historical corpus. -/
def fetch_past_papers (results : List (List Paper)) : List Paper :=
  (mergePartitions results).map Prod.snd

/-- Model of `fetch_new_papers`, which performs the identical merge over
its own partition queries for the latest corpus. -/
def fetch_new_papers (results : List (List Paper)) : List Paper :=
  (mergePartitions results).map Prod.snd

/-- Mutable state of a `PaperManager` instance. -/
structure ManagerState where
  papers_per_page : ℕ
  current_page : ℕ
  papers : List Paper
  total_pages : ℕ
  sort_method : String
  trending_keywords : List String
  author_publication_counts : String → ℕ
  all_past_papers : List Paper
  new_papers : List Paper
  last_fetch_time : Option ℚ
  cache_duration : ℚ
  raw_papers : List Paper

/-- State built by `PaperManager.__init__` for a given page size (the
deployed instance uses the default `papers_per_page=30`). -/
def initState (papers_per_page : ℕ) : ManagerState where
  papers_per_page := papers_per_page
  current_page := 1
  papers := []
  total_pages := 1
  sort_method := "hot"
  trending_keywords := []
  author_publication_counts := fun _ => 0
  all_past_papers := []
  new_papers := []
  last_fetch_time := none
  cache_duration := 3600
  raw_papers := []

/-- Cache gate of `fetch_papers_async` line 42: the cached data is used
when `self.last_fetch_time and (now - self.last_fetch_time) < self.cache_duration`
holds.  Python truthiness makes both `None` and a `0.0` timestamp falsy. -/
def usesCache (now : ℚ) (st : ManagerState) : Bool :=
  match st.last_fetch_time with
  | none => false
  | some t => decide (t ≠ 0) && decide (now - t < st.cache_duration)

/-- TTL gate in the spec's vocabulary: a refresh is needed exactly when
the cached data is not used. -/
def needsRefresh (now : ℚ) (st : ManagerState) : Bool :=
  !usesCache now st

/-- Comparison used to model `sorted(..., key=calculate_score, reverse=True)`
over the real-valued hot score. -/
noncomputable def hotSortLe (trending : List String) (counts : String → ℕ)
    (now : ℚ) (a b : Paper) : Bool :=
  @decide
    (calculate_score trending counts now b ≤ calculate_score trending counts now a)
    (Classical.propDecidable _)

/-- Comparison modelling `sorted(..., key=lambda x: x.published, reverse=True)`. -/
def publishedSortLe (a b : Paper) : Bool :=
  decide (b.published ≤ a.published)

/-- Comparison modelling `sorted(..., key=calculate_rising_score, reverse=True)`. -/
def risingSortLe (trending : List String) (now : ℚ) (a b : Paper) : Bool :=
  decide (calculate_rising_score trending now b ≤
    calculate_rising_score trending now a)

/-- Model of `sort_papers`: rebuild `self.papers` from the corpus selected
by `self.sort_method`; an unknown mode falls into the final else branch,
which sorts by the hot score like the "hot" branch does. -/
noncomputable def sort_papers (now : ℚ) (st : ManagerState) : ManagerState :=
  let byHot :=
    st.raw_papers.mergeSort
      (hotSortLe st.trending_keywords st.author_publication_counts now)
  if st.sort_method = "hot" then
    { st with papers := byHot }
  else if st.sort_method = "new" then
    { st with papers := st.new_papers.mergeSort publishedSortLe }
  else if st.sort_method = "rising" then
    { st with papers := st.raw_papers.mergeSort (risingSortLe st.trending_keywords now) }
  else
    { st with papers := byHot }

/-- Model of `fetch_papers_async`.  The network interaction of the two
corpus builders is abstracted into the per-partition result lists
`pastResults` and `newResults`; the returned boolean is the method's
return value (`False` exactly on the "Failed to fetch papers." path). -/
noncomputable def fetch_papers_async (now : ℚ)
    (pastResults newResults : List (List Paper)) (st : ManagerState) :
    ManagerState × Bool :=
  if usesCache now st then (st, true)
  else
    let past := fetch_past_papers pastResults
    let latest := fetch_new_papers newResults
    let st1 := { st with all_past_papers := past, new_papers := latest }
    if st1.all_past_papers.isEmpty || st1.new_papers.isEmpty then (st1, false)
    else
      let trend := calculate_trending_keywords st1.all_past_papers
      let acts :=
        calculate_author_activity st1.author_publication_counts
          st1.all_past_papers
      let st2 := { st1 with
        trending_keywords := trend
        author_publication_counts := acts
        raw_papers := st1.all_past_papers }
      let st3 := sort_papers now st2
      let pages :=
        max ((st3.papers.length + st3.papers_per_page - 1) / st3.papers_per_page) 1
      let st4 := { st3 with
        total_pages := pages
        current_page := 1
        last_fetch_time := some now }
      (st4, true)

/-- Model of `set_sort_method`: unknown modes (case-insensitively) are
replaced by "hot", the papers are re-sorted, the page resets to 1, and
the method unconditionally returns `True`. -/
noncomputable def set_sort_method (method : String) (now : ℚ)
    (st : ManagerState) : ManagerState × Bool :=
  let method1 :=
    if pyLower method ∉ (["hot", "new", "rising"] : List String) then "hot"
    else method
  let st1 := { st with sort_method := pyLower method1 }
  let st2 := sort_papers now st1
  ({ st2 with current_page := 1 }, true)

/-- Content of `render_papers`, abstracted from HTML to the record slice
`papers[start:end]` of the current page. -/
def render_papers (st : ManagerState) : List Paper :=
  (st.papers.drop ((st.current_page - 1) * st.papers_per_page)).take
    st.papers_per_page

/-- Model of `next_page`: advance only when strictly below the stored
`total_pages`. -/
def next_page (st : ManagerState) : ManagerState :=
  if st.current_page < st.total_pages then
    { st with current_page := st.current_page + 1 }
  else st

/-- Model of `prev_page`: go back only when strictly above page 1. -/
def prev_page (st : ManagerState) : ManagerState :=
  if 1 < st.current_page then
    { st with current_page := st.current_page - 1 }
  else st

/-- Outcome of the sort-change handler: either the rendered page or the
"Failed to sort papers." message. -/
inductive SortChangeView where
  | rendered (items : List Paper)
  | failureMessage

/-- Model of the `change_sort_method` handler: lower-case the UI value,
call `set_sort_method`, and branch on its returned boolean. -/
noncomputable def change_sort_method (method : String) (now : ℚ)
    (st : ManagerState) : ManagerState × SortChangeView :=
  let r := set_sort_method (pyLower method) now st
  if r.2 then (r.1, SortChangeView.rendered (render_papers r.1))
  else (r.1, SortChangeView.failureMessage)

/-!
Projection facts: `sort_papers` only rebuilds `papers`, every other field
is untouched in all four branches.
-/

theorem sort_papers_current_page (now : ℚ) (st : ManagerState) :
    (sort_papers now st).current_page = st.current_page := by
  unfold sort_papers
  dsimp only
  repeat' split
  all_goals rfl

theorem sort_papers_total_pages (now : ℚ) (st : ManagerState) :
    (sort_papers now st).total_pages = st.total_pages := by
  unfold sort_papers
  dsimp only
  repeat' split
  all_goals rfl

theorem sort_papers_sort_method (now : ℚ) (st : ManagerState) :
    (sort_papers now st).sort_method = st.sort_method := by
  unfold sort_papers
  dsimp only
  repeat' split
  all_goals rfl

theorem sort_papers_counts (now : ℚ) (st : ManagerState) :
    (sort_papers now st).author_publication_counts =
      st.author_publication_counts := by
  unfold sort_papers
  dsimp only
  repeat' split
  all_goals rfl

theorem sort_papers_all_past (now : ℚ) (st : ManagerState) :
    (sort_papers now st).all_past_papers = st.all_past_papers := by
  unfold sort_papers
  dsimp only
  repeat' split
  all_goals rfl

theorem sort_papers_new_papers (now : ℚ) (st : ManagerState) :
    (sort_papers now st).new_papers = st.new_papers := by
  unfold sort_papers
  dsimp only
  repeat' split
  all_goals rfl

theorem sort_papers_raw_papers (now : ℚ) (st : ManagerState) :
    (sort_papers now st).raw_papers = st.raw_papers := by
  unfold sort_papers
  dsimp only
  repeat' split
  all_goals rfl

theorem sort_papers_last_fetch (now : ℚ) (st : ManagerState) :
    (sort_papers now st).last_fetch_time = st.last_fetch_time := by
  unfold sort_papers
  dsimp only
  repeat' split
  all_goals rfl

theorem sort_papers_cache_duration (now : ℚ) (st : ManagerState) :
    (sort_papers now st).cache_duration = st.cache_duration := by
  unfold sort_papers
  dsimp only
  repeat' split
  all_goals rfl

theorem sort_papers_per_page (now : ℚ) (st : ManagerState) :
    (sort_papers now st).papers_per_page = st.papers_per_page := by
  unfold sort_papers
  dsimp only
  repeat' split
  all_goals rfl

theorem sort_papers_trending (now : ℚ) (st : ManagerState) :
    (sort_papers now st).trending_keywords = st.trending_keywords := by
  unfold sort_papers
  dsimp only
  repeat' split
  all_goals rfl

theorem sort_papers_papers_length (now : ℚ) (st : ManagerState) :
    (sort_papers now st).papers.length =
      if st.sort_method = "new" then st.new_papers.length
      else st.raw_papers.length := by
  unfold sort_papers
  dsimp only
  repeat' split
  all_goals simp_all [List.length_mergeSort]

/-- Field-level description of a successful refresh: when the cache is
stale and both merged corpora are non-empty, `fetch_papers_async` returns
`true` and the state fields are the source's lines 80 to 86. -/
theorem fetch_papers_async_success (now : ℚ)
    (pastResults newResults : List (List Paper)) (st : ManagerState)
    (hcache : usesCache now st = false)
    (hpast : fetch_past_papers pastResults ≠ [])
    (hnew : fetch_new_papers newResults ≠ []) :
    (fetch_papers_async now pastResults newResults st).2 = true ∧
    (fetch_papers_async now pastResults newResults st).1.all_past_papers =
      fetch_past_papers pastResults ∧
    (fetch_papers_async now pastResults newResults st).1.new_papers =
      fetch_new_papers newResults ∧
    (fetch_papers_async now pastResults newResults st).1.author_publication_counts =
      calculate_author_activity st.author_publication_counts
        (fetch_past_papers pastResults) ∧
    (fetch_papers_async now pastResults newResults st).1.trending_keywords =
      calculate_trending_keywords (fetch_past_papers pastResults) ∧
    (fetch_papers_async now pastResults newResults st).1.raw_papers =
      fetch_past_papers pastResults ∧
    (fetch_papers_async now pastResults newResults st).1.current_page = 1 ∧
    (fetch_papers_async now pastResults newResults st).1.last_fetch_time =
      some now ∧
    (fetch_papers_async now pastResults newResults st).1.cache_duration =
      st.cache_duration ∧
    (fetch_papers_async now pastResults newResults st).1.papers_per_page =
      st.papers_per_page ∧
    (fetch_papers_async now pastResults newResults st).1.sort_method =
      st.sort_method ∧
    (fetch_papers_async now pastResults newResults st).1.papers.length =
      (if st.sort_method = "new" then (fetch_new_papers newResults).length
       else (fetch_past_papers pastResults).length) ∧
    (fetch_papers_async now pastResults newResults st).1.total_pages =
      max (((if st.sort_method = "new" then (fetch_new_papers newResults).length
             else (fetch_past_papers pastResults).length) +
          st.papers_per_page - 1) / st.papers_per_page) 1 := by
  have hcond : ¬(usesCache now st = true) := by simp [hcache]
  have hempty :
      ¬(((fetch_past_papers pastResults).isEmpty ||
          (fetch_new_papers newResults).isEmpty) = true) := by
    simp [List.isEmpty_iff, hpast, hnew]
  unfold fetch_papers_async
  rw [if_neg hcond]
  dsimp only
  rw [if_neg hempty]
  dsimp only
  refine ⟨rfl, ?_, ?_, ?_, ?_, ?_, rfl, rfl, ?_, ?_, ?_, ?_, ?_⟩
  · exact sort_papers_all_past ..
  · exact sort_papers_new_papers ..
  · exact sort_papers_counts ..
  · exact sort_papers_trending ..
  · exact sort_papers_raw_papers ..
  · exact sort_papers_cache_duration ..
  · exact sort_papers_per_page ..
  · exact sort_papers_sort_method ..
  · exact sort_papers_papers_length ..
  · rw [sort_papers_papers_length, sort_papers_per_page]

/-- Sample record used as a concrete input in witnesses. -/
def samplePaper : Paper :=
  ⟨"id1", "t", "s", [⟨"A"⟩], 0, [], none⟩

/-- Sample record whose whole vocabulary is two common words. -/
def helloPaper : Paper :=
  ⟨"id2", "Hello", "World", [], 0, [], none⟩

/-- C4 counterexample: the claim predicts `needsRefresh` is false whenever
`lastRefresh` is set and `now - lastRefresh < ttl`, but a stored timestamp
of `0` is falsy in Python, so the gate still demands a refresh. -/
theorem c4_needs_refresh_counterexample :
    ({ initState 30 with last_fetch_time := some 0 } :
        ManagerState).last_fetch_time.isSome = true ∧
    (5 : ℚ) - 0 < 3600 ∧
    needsRefresh 5 { initState 30 with last_fetch_time := some 0 } = true := by
  refine ⟨rfl, by norm_num, ?_⟩
  simp [needsRefresh, usesCache]

/-- C4 (amended): with ttl = 3600, `needsRefresh` is false iff
`lastRefresh` is set to a nonzero timestamp `t` with `now - t < 3600`; it
is true at the boundary `now - t = 3600`, whenever `lastRefresh` is unset,
and in the Python-truthiness corner case `lastRefresh = 0`. -/
theorem c4_needs_refresh_amended (now : ℚ) (st : ManagerState)
    (h : st.cache_duration = 3600) :
    needsRefresh now st = false ↔
      ∃ t, st.last_fetch_time = some t ∧ t ≠ 0 ∧ now - t < 3600 := by
  cases hl : st.last_fetch_time with
  | none => simp [needsRefresh, usesCache, hl]
  | some t => simp [needsRefresh, usesCache, hl, h, and_assoc]

theorem c4_needs_refresh_witness :
    ({ initState 30 with last_fetch_time := some 10 } :
        ManagerState).cache_duration = 3600 ∧
    (needsRefresh 20 { initState 30 with last_fetch_time := some 10 } = false ↔
      ∃ t, ({ initState 30 with last_fetch_time := some 10 } :
          ManagerState).last_fetch_time = some t ∧ t ≠ 0 ∧ (20 : ℚ) - t < 3600) :=
  ⟨rfl, c4_needs_refresh_amended 20 _ rfl⟩

/-- C7: if every token of the lower-cased, whitespace-split title+abstract
of a record lies in the trending set, the novelty count is 0 and the
rising score is 0 for every current time. -/
theorem c7_rising_score_zero (trending : List String) (now : ℚ) (p : Paper)
    (h : (paperWords p).toFinset ⊆ trending.toFinset) :
    ((paperWords p).toFinset \ trending.toFinset).card = 0 ∧
    calculate_rising_score trending now p = 0 := by
  have hd : (paperWords p).toFinset \ trending.toFinset = ∅ :=
    Finset.sdiff_eq_empty_iff_subset.mpr h
  constructor
  · rw [hd]; rfl
  · unfold calculate_rising_score
    rw [hd]
    simp

theorem c7_rising_score_witness :
    (paperWords helloPaper).toFinset ⊆
      (["hello", "world"] : List String).toFinset ∧
    ((paperWords helloPaper).toFinset \
      (["hello", "world"] : List String).toFinset).card = 0 ∧
    calculate_rising_score ["hello", "world"] 86400 helloPaper = 0 :=
  ⟨by decide, c7_rising_score_zero ["hello", "world"] 86400 helloPaper (by decide)⟩

/-- C8: a sort-mode string that is not (case-insensitively) hot, new or
rising makes `set_sort_method` behave exactly as on "hot" (same resulting
state and return value), and every call resets the current page to 1. -/
theorem c8_sort_mode_fallback (method : String) (now : ℚ) (st : ManagerState) :
    (pyLower method ∉ (["hot", "new", "rising"] : List String) →
      set_sort_method method now st = set_sort_method "hot" now st) ∧
    (set_sort_method method now st).1.current_page = 1 := by
  constructor
  · intro h
    unfold set_sort_method
    rw [if_pos h, ite_self]
  · rfl

theorem c8_sort_mode_fallback_witness :
    pyLower "bogus" ∉ (["hot", "new", "rising"] : List String) ∧
    set_sort_method "bogus" 0 (initState 30) =
      set_sort_method "hot" 0 (initState 30) ∧
    (set_sort_method "bogus" 0 (initState 30)).1.current_page = 1 :=
  ⟨by decide, (c8_sort_mode_fallback "bogus" 0 (initState 30)).1 (by decide),
    (c8_sort_mode_fallback "bogus" 0 (initState 30)).2⟩

/-- C10: `set_sort_method` returns `True` on every input, so the
`change_sort_method` handler always takes the rendered branch and its
"Failed to sort papers." branch is unreachable. -/
theorem c10_sort_failure_unreachable (method : String) (now : ℚ)
    (st : ManagerState) :
    (set_sort_method method now st).2 = true ∧
    (change_sort_method method now st).2 =
      SortChangeView.rendered
        (render_papers (set_sort_method (pyLower method) now st).1) ∧
    (change_sort_method method now st).2 ≠ SortChangeView.failureMessage := by
  refine ⟨rfl, rfl, ?_⟩
  intro h
  have h2 : SortChangeView.rendered
      (render_papers (set_sort_method (pyLower method) now st).1) =
      SortChangeView.failureMessage := h
  exact SortChangeView.noConfusion h2

/-- C1 counterexample: with a non-empty historical merge and an empty
latest merge the code returns `False` (refresh failure), although one of
the two corpora is non-empty — the success condition requires both. -/
theorem c1_refresh_failure_counterexample :
    (fetch_papers_async 0 [[samplePaper]] [[]] (initState 30)).2 = false ∧
    fetch_past_papers [[samplePaper]] ≠ [] := by
  constructor
  · rfl
  · have h : fetch_past_papers [[samplePaper]] = [samplePaper] := rfl
    rw [h]
    simp

/-- C1 (amended): when the cache gate lets the fetch proceed, the refresh
reports failure iff at least one of the two merged corpora is empty;
equivalently it succeeds only when both corpora are non-empty. -/
theorem c1_refresh_failure_amended (now : ℚ)
    (pastResults newResults : List (List Paper)) (st : ManagerState)
    (hcache : usesCache now st = false) :
    (fetch_papers_async now pastResults newResults st).2 = false ↔
      (fetch_past_papers pastResults = [] ∨
        fetch_new_papers newResults = []) := by
  have hcond : ¬(usesCache now st = true) := by simp [hcache]
  unfold fetch_papers_async
  rw [if_neg hcond]
  dsimp only
  by_cases hempty :
      ((fetch_past_papers pastResults).isEmpty ||
        (fetch_new_papers newResults).isEmpty) = true
  · rw [if_pos hempty]
    simpa [List.isEmpty_iff] using hempty
  · rw [if_neg hempty]
    simp only [List.isEmpty_iff, Bool.or_eq_true] at hempty
    simpa using hempty

theorem c1_refresh_failure_witness :
    usesCache 12345 (initState 30) = false ∧
    ((fetch_papers_async 12345 [[samplePaper]] [[]] (initState 30)).2 = false ↔
      (fetch_past_papers [[samplePaper]] = [] ∨ fetch_new_papers [[]] = [])) :=
  ⟨rfl, c1_refresh_failure_amended 12345 [[samplePaper]] [[]] (initState 30) rfl⟩

/-- Field-level description of `set_sort_method`: the page resets to 1,
the stored `total_pages` and the page size are untouched, and the length
of the re-sorted sequence is that of the corpus selected by the
effective (fallback-resolved) mode. -/
theorem set_sort_method_fields (m : String) (now : ℚ) (st : ManagerState) :
    (set_sort_method m now st).1.current_page = 1 ∧
    (set_sort_method m now st).1.total_pages = st.total_pages ∧
    (set_sort_method m now st).1.papers_per_page = st.papers_per_page ∧
    (set_sort_method m now st).1.papers.length =
      (if pyLower
          (if pyLower m ∉ (["hot", "new", "rising"] : List String) then "hot"
           else m) = "new"
       then st.new_papers.length else st.raw_papers.length) := by
  unfold set_sort_method
  dsimp only
  refine ⟨rfl, sort_papers_total_pages .., sort_papers_per_page .., ?_⟩
  rw [sort_papers_papers_length]

theorem next_page_current_page (st : ManagerState) :
    (next_page st).current_page =
      if st.current_page < st.total_pages then st.current_page + 1
      else st.current_page := by
  unfold next_page
  split
  all_goals rfl

theorem next_page_other_fields (st : ManagerState) :
    (next_page st).papers = st.papers ∧
    (next_page st).total_pages = st.total_pages ∧
    (next_page st).papers_per_page = st.papers_per_page := by
  unfold next_page
  split
  all_goals exact ⟨rfl, rfl, rfl⟩

/-- C3 (amended): the page number always stays in `[1, st.total_pages]`
for the STORED page count `st.total_pages` — the value computed at the
last successful refresh (minimum 1, initially 1) — and `next_page` at
the stored bound and `prev_page` at page 1 are no-ops.  The stored value
is not recomputed on a sort-mode change, so it can differ from
`ceil(count of the currently sorted sequence / pageSize)`. -/
theorem c3_pagination_invariant_amended (st : ManagerState)
    (h1 : 1 ≤ st.current_page) (h2 : st.current_page ≤ st.total_pages) :
    (st.current_page = st.total_pages → next_page st = st) ∧
    (st.current_page = 1 → prev_page st = st) ∧
    (1 ≤ (next_page st).current_page ∧
      (next_page st).current_page ≤ (next_page st).total_pages) ∧
    (1 ≤ (prev_page st).current_page ∧
      (prev_page st).current_page ≤ (prev_page st).total_pages) ∧
    (∀ m now, 1 ≤ (set_sort_method m now st).1.current_page ∧
      (set_sort_method m now st).1.current_page ≤
        (set_sort_method m now st).1.total_pages) ∧
    (∀ now pr nr, 1 ≤ (fetch_papers_async now pr nr st).1.current_page ∧
      (fetch_papers_async now pr nr st).1.current_page ≤
        (fetch_papers_async now pr nr st).1.total_pages) := by
  refine ⟨?_, ?_, ?_, ?_, ?_, ?_⟩
  · intro h
    unfold next_page
    rw [if_neg (by omega)]
  · intro h
    unfold prev_page
    rw [if_neg (by omega)]
  · unfold next_page
    split
    · refine ⟨?_, ?_⟩
      · show 1 ≤ st.current_page + 1
        omega
      · show st.current_page + 1 ≤ st.total_pages
        omega
    · exact ⟨h1, h2⟩
  · unfold prev_page
    split
    · refine ⟨?_, ?_⟩
      · show 1 ≤ st.current_page - 1
        omega
      · show st.current_page - 1 ≤ st.total_pages
        omega
    · exact ⟨h1, h2⟩
  · intro m now
    obtain ⟨hcp, htp, -, -⟩ := set_sort_method_fields m now st
    rw [hcp, htp]
    exact ⟨le_refl 1, le_trans h1 h2⟩
  · intro now pr nr
    unfold fetch_papers_async
    by_cases hc : usesCache now st = true
    · rw [if_pos hc]
      exact ⟨h1, h2⟩
    · rw [if_neg hc]
      dsimp only
      by_cases he :
          ((fetch_past_papers pr).isEmpty ||
            (fetch_new_papers nr).isEmpty) = true
      · rw [if_pos he]
        exact ⟨h1, h2⟩
      · rw [if_neg he]
        exact ⟨le_refl 1, le_max_right _ 1⟩

theorem c3_pagination_invariant_witness :
    (1 ≤ (initState 30).current_page ∧
      (initState 30).current_page ≤ (initState 30).total_pages) ∧
    (1 ≤ (next_page (initState 30)).current_page ∧
      (next_page (initState 30)).current_page ≤
        (next_page (initState 30)).total_pages) :=
  ⟨⟨by decide, by decide⟩,
    (c3_pagination_invariant_amended (initState 30) (by decide)
      (by decide)).2.2.1⟩

/-- Paper with a one-character identifier and no text, used to build the
pagination counterexample corpus. -/
def mkIdPaper (c : Char) : Paper :=
  ⟨String.mk [c], "t", "s", [], 0, [], none⟩

/-- Thirty-one distinct records: two pages at the deployed page size 30. -/
def c3PastPapers : List Paper :=
  (List.range 31).map (fun i => mkIdPaper (Char.ofNat (65 + i)))

/-- Single latest record for the pagination counterexample. -/
def c3NewPaper : Paper :=
  mkIdPaper 'z'

/-- State reached by refresh (31 historical records, 1 latest record) at
page size 30, then switching the sort mode to "new", then `next_page`. -/
noncomputable def c3State : ManagerState :=
  next_page
    (set_sort_method "new" 0
      (fetch_papers_async 0 [c3PastPapers] [[c3NewPaper]] (initState 30)).1).1

/-- C3 counterexample: after a refresh with 31 historical and 1 latest
record, switching to "new" and pressing next leaves the manager on page
2, while `ceil(count of the currently sorted sequence / pageSize)` is 1:
the claimed invariant fails because `total_pages` is not recomputed on a
sort-mode change. -/
theorem c3_pagination_counterexample :
    c3State.current_page = 2 ∧
    max ((c3State.papers.length + c3State.papers_per_page - 1) /
      c3State.papers_per_page) 1 = 1 ∧
    ¬(c3State.current_page ≤
      max ((c3State.papers.length + c3State.papers_per_page - 1) /
        c3State.papers_per_page) 1) := by
  have hpasteq : fetch_past_papers [c3PastPapers] =
      c3PastPapers := rfl
  have hlen : (fetch_past_papers [c3PastPapers]).length = 31 := rfl
  have hpast : fetch_past_papers [c3PastPapers] ≠ [] := by
    intro h
    rw [h] at hlen
    exact absurd hlen (by decide)
  have hneweq : fetch_new_papers [[c3NewPaper]] = [c3NewPaper] := rfl
  have hnew : fetch_new_papers [[c3NewPaper]] ≠ [] := by
    rw [hneweq]
    simp
  obtain ⟨-, -, hnp, -, -, -, hcp, -, -, hpp, hsm, hplen, htp⟩ :=
    fetch_papers_async_success 0 [c3PastPapers] [[c3NewPaper]]
      (initState 30) rfl hpast hnew
  set cs1 := (fetch_papers_async 0 [c3PastPapers] [[c3NewPaper]]
    (initState 30)).1 with hcs1
  have htp2 : cs1.total_pages = 2 := by
    rw [htp, hlen]
    decide
  obtain ⟨hscp, hstp, hspp, hsplen⟩ := set_sort_method_fields "new" 0 cs1
  set cs2 := (set_sort_method "new" 0 cs1).1 with hcs2
  have hstp2 : cs2.total_pages = 2 := by rw [hstp, htp2]
  have hsplen2 : cs2.papers.length = 1 := by
    rw [hsplen]
    have : pyLower (if pyLower "new" ∉
        (["hot", "new", "rising"] : List String) then "hot" else "new") =
        "new" := by decide
    rw [this]
    simp only [if_pos rfl]
    rw [hnp, hneweq]
    rfl
  have hspp2 : cs2.papers_per_page = 30 := by rw [hspp, hpp]; rfl
  obtain ⟨hnpap, hntp, hnpp⟩ := next_page_other_fields cs2
  have hfinal_cp : c3State.current_page = 2 := by
    show (next_page cs2).current_page = 2
    rw [next_page_current_page, hscp, hstp2]
    norm_num
  have hfinal_len : c3State.papers.length = 1 := by
    show (next_page cs2).papers.length = 1
    rw [hnpap, hsplen2]
  have hfinal_pp : c3State.papers_per_page = 30 := by
    show (next_page cs2).papers_per_page = 30
    rw [hnpp, hspp2]
  refine ⟨hfinal_cp, ?_, ?_⟩
  · rw [hfinal_len, hfinal_pp]
    decide
  · rw [hfinal_cp, hfinal_len, hfinal_pp]
    decide

/-- C2 failing input: the `defaultdict` of author counts is never cleared,
so two successful refreshes an hour apart over the same single-record
corpus leave author "A" with count 2, although the current historical
corpus contains exactly one record listing "A". -/
theorem c2_author_activity_accumulates :
    (fetch_papers_async 3610 [[samplePaper]] [[samplePaper]]
        (fetch_papers_async 10 [[samplePaper]] [[samplePaper]]
          (initState 30)).1).1.author_publication_counts "A" = 2 ∧
    ((fetch_papers_async 3610 [[samplePaper]] [[samplePaper]]
        (fetch_papers_async 10 [[samplePaper]] [[samplePaper]]
          (initState 30)).1).1.all_past_papers.countP
      (fun q => decide ("A" ∈ q.authors.map Author.name))) = 1 := by
  have hpasteq : fetch_past_papers [[samplePaper]] = [samplePaper] := rfl
  have hpast : fetch_past_papers [[samplePaper]] ≠ [] := by
    rw [hpasteq]
    simp
  have hnew : fetch_new_papers [[samplePaper]] ≠ [] := by
    show ([samplePaper] : List Paper) ≠ []
    simp
  obtain ⟨-, hap1, -, hcnt1, -, -, -, hlf1, hcd1, -, -, -, -⟩ :=
    fetch_papers_async_success 10 [[samplePaper]] [[samplePaper]]
      (initState 30) rfl hpast hnew
  set st1 := (fetch_papers_async 10 [[samplePaper]] [[samplePaper]]
    (initState 30)).1 with hst1
  have hcache2 : usesCache 3610 st1 = false := by
    have hcd : (initState 30).cache_duration = 3600 := rfl
    simp only [usesCache, hlf1, hcd1, hcd]
    norm_num
  obtain ⟨-, hap2, -, hcnt2, -, -, -, -, -, -, -, -, -⟩ :=
    fetch_papers_async_success 3610 [[samplePaper]] [[samplePaper]]
      st1 hcache2 hpast hnew
  constructor
  · rw [hcnt2, hcnt1, hpasteq]
    rfl
  · rw [hap2, hpasteq]
    rfl

/-- C5 counterexample: with zero author activity and no trending-keyword
hits the numerator is 0, so the hot score is 0 at every age — it does not
strictly decrease as `ageDays` increases. -/
theorem c5_hot_score_counterexample :
    ageDays 0 samplePaper < ageDays 432000 samplePaper ∧
    calculate_score [] (fun _ => 0) 0 samplePaper =
      calculate_score [] (fun _ => 0) 432000 samplePaper := by
  constructor
  · show (max ⌊((0 : ℚ) - samplePaper.published) / 86400⌋ 0).toNat <
      (max ⌊((432000 : ℚ) - samplePaper.published) / 86400⌋ 0).toNat
    have hp : samplePaper.published = 0 := rfl
    rw [hp]
    norm_num
  · unfold calculate_score
    have h1 : author_activity_score (fun _ => 0) samplePaper = 0 := rfl
    have h2 : keyword_score [] samplePaper = 0 := rfl
    rw [h1, h2]
    norm_num

/-- C5 (amended): holding the record (hence its author and keyword
scores) fixed, the hot score strictly decreases as `ageDays` increases,
PROVIDED the numerator `authorScore + keywordScore` is positive; when it
is zero the score is constantly zero. -/
theorem c5_hot_score_strict_decay (trending : List String)
    (counts : String → ℕ) (p : Paper) (now1 now2 : ℚ)
    (hage : ageDays now1 p < ageDays now2 p)
    (hpos : 0 < author_activity_score counts p + keyword_score trending p) :
    calculate_score trending counts now2 p <
      calculate_score trending counts now1 p := by
  unfold calculate_score
  have hn : (0 : ℝ) <
      ((author_activity_score counts p + keyword_score trending p : ℕ) : ℝ) := by
    exact_mod_cast hpos
  have hlt : ((ageDays now1 p : ℕ) : ℝ) + 7 < ((ageDays now2 p : ℕ) : ℝ) + 7 := by
    have := (Nat.cast_lt (α := ℝ)).mpr hage
    linarith
  have hb0 : (0 : ℝ) ≤ ((ageDays now1 p : ℕ) : ℝ) + 7 := by positivity
  have hr : (((ageDays now1 p : ℕ) : ℝ) + 7) ^ (1.5 : ℝ) <
      (((ageDays now2 p : ℕ) : ℝ) + 7) ^ (1.5 : ℝ) :=
    Real.rpow_lt_rpow hb0 hlt (by norm_num)
  have hrpos : (0 : ℝ) < (((ageDays now1 p : ℕ) : ℝ) + 7) ^ (1.5 : ℝ) :=
    Real.rpow_pos_of_pos (by positivity) _
  exact div_lt_div_of_pos_left hn hrpos hr

theorem c5_hot_score_strict_decay_witness :
    ageDays 0 samplePaper < ageDays 86400 samplePaper ∧
    0 < author_activity_score (fun _ => 1) samplePaper +
      keyword_score [] samplePaper ∧
    calculate_score [] (fun _ => 1) 86400 samplePaper <
      calculate_score [] (fun _ => 1) 0 samplePaper := by
  have h1 : ageDays 0 samplePaper < ageDays 86400 samplePaper := by
    show (max ⌊((0 : ℚ) - samplePaper.published) / 86400⌋ 0).toNat <
      (max ⌊((86400 : ℚ) - samplePaper.published) / 86400⌋ 0).toNat
    have hp : samplePaper.published = 0 := rfl
    rw [hp]
    norm_num
  have h2 : 0 < author_activity_score (fun _ => 1) samplePaper +
      keyword_score [] samplePaper := by decide
  exact ⟨h1, h2,
    c5_hot_score_strict_decay [] (fun _ => 1) samplePaper 0 86400 h1 h2⟩

/-!
Dictionary lemmas for the insertion-ordered association-list model.
-/

theorem dictKeys_dictInsert {β : Type} (d : List (String × β)) (k : String)
    (v : β) :
    dictKeys (dictInsert d k v) =
      if k ∈ dictKeys d then dictKeys d else dictKeys d ++ [k] := by
  induction d with
  | nil => simp [dictInsert, dictKeys]
  | cons hd t ih =>
    obtain ⟨k1, v1⟩ := hd
    by_cases h : k1 = k
    · subst h
      have hm : k1 ∈ dictKeys ((k1, v1) :: t) := by simp [dictKeys]
      rw [if_pos hm]
      simp [dictInsert, dictKeys]
    · have hkk1 : k ≠ k1 := fun hk => h hk.symm
      have hstep : dictInsert ((k1, v1) :: t) k v =
          (k1, v1) :: dictInsert t k v := by
        simp [dictInsert, h]
      have hcons : dictKeys ((k1, v1) :: dictInsert t k v) =
          k1 :: dictKeys (dictInsert t k v) := by
        simp [dictKeys]
      have hcons2 : dictKeys ((k1, v1) :: t) = k1 :: dictKeys t := by
        simp [dictKeys]
      rw [hstep, hcons, hcons2, ih]
      by_cases hm : k ∈ dictKeys t
      · rw [if_pos hm, if_pos (by simp [hm])]
      · rw [if_neg hm, if_neg (by simp [hm, hkk1])]
        simp

theorem nodup_dictKeys_dictInsert {β : Type} {d : List (String × β)}
    (k : String) (v : β) (h : (dictKeys d).Nodup) :
    (dictKeys (dictInsert d k v)).Nodup := by
  rw [dictKeys_dictInsert]
  by_cases hm : k ∈ dictKeys d
  · rwa [if_pos hm]
  · rw [if_neg hm]
    simp [List.nodup_append, h, hm]

theorem dictGet_dictInsert_self {β : Type} (d : List (String × β))
    (k : String) (v : β) :
    dictGet (dictInsert d k v) k = some v := by
  induction d with
  | nil => simp [dictInsert, dictGet]
  | cons hd t ih =>
    obtain ⟨k1, v1⟩ := hd
    by_cases h : k1 = k
    · subst h
      simp [dictInsert, dictGet]
    · simp [dictInsert, dictGet, h, ih]

theorem dictGet_dictInsert_ne {β : Type} (d : List (String × β))
    {k k2 : String} (v : β) (h : k2 ≠ k) :
    dictGet (dictInsert d k v) k2 = dictGet d k2 := by
  have hne : ¬(k = k2) := fun hk => h hk.symm
  induction d with
  | nil => simp [dictInsert, dictGet, hne]
  | cons hd t ih =>
    obtain ⟨k1, v1⟩ := hd
    by_cases h1 : k1 = k
    · subst h1
      simp [dictInsert, dictGet, hne]
    · simp [dictInsert, dictGet, h1, ih]

theorem dictGet_eq_some_of_mem {β : Type} {d : List (String × β)}
    {k : String} {v : β} (hnd : (dictKeys d).Nodup) (hm : (k, v) ∈ d) :
    dictGet d k = some v := by
  induction d with
  | nil => cases hm
  | cons hd t ih =>
    obtain ⟨k1, v1⟩ := hd
    have hnd2 : k1 ∉ dictKeys t ∧ (dictKeys t).Nodup := by
      simpa [dictKeys] using hnd
    rcases List.mem_cons.mp hm with heq | ht
    · cases heq
      simp [dictGet]
    · have hk1 : k1 ≠ k := by
        intro hk
        subst hk
        exact hnd2.1 (by simpa [dictKeys] using List.mem_map_of_mem Prod.fst ht)
      simp only [dictGet, if_neg hk1]
      exact ih hnd2.2 ht

theorem mem_of_dictGet_eq_some {β : Type} {d : List (String × β)}
    {k : String} {v : β} (h : dictGet d k = some v) : (k, v) ∈ d := by
  induction d with
  | nil => simp [dictGet] at h
  | cons hd t ih =>
    obtain ⟨k1, v1⟩ := hd
    by_cases h1 : k1 = k
    · subst h1
      have h2 : v1 = v := by simpa [dictGet] using h
      subst h2
      exact List.mem_cons_self _ _
    · have h2 : dictGet t k = some v := by simpa [dictGet, h1] using h
      exact List.mem_cons_of_mem _ (ih h2)

theorem mem_dictInsert_elim {β : Type} {d : List (String × β)}
    {k k2 : String} {v v2 : β} (h : (k2, v2) ∈ dictInsert d k v) :
    (k2 = k ∧ v2 = v) ∨ (k2, v2) ∈ d := by
  induction d with
  | nil =>
    simp [dictInsert] at h
    exact Or.inl h
  | cons hd t ih =>
    obtain ⟨k1, v1⟩ := hd
    by_cases h1 : k1 = k
    · subst h1
      simp only [dictInsert, if_pos rfl] at h
      rcases List.mem_cons.mp h with heq | ht
      · cases heq
        exact Or.inl ⟨rfl, rfl⟩
      · exact Or.inr (List.mem_cons_of_mem _ ht)
    · simp only [dictInsert, if_neg h1] at h
      rcases List.mem_cons.mp h with heq | ht
      · cases heq
        exact Or.inr (List.mem_cons_self _ _)
      · rcases ih ht with hl | hr
        · exact Or.inl hl
        · exact Or.inr (List.mem_cons_of_mem _ hr)

/-- Identifier-keyed insertion of a stream of records, the inner loop of
both corpus builders. -/
def insertAllById (d : List (String × Paper)) (s : List Paper) :
    List (String × Paper) :=
  s.foldl (fun d p => dictInsert d p.entry_id p) d

theorem mergePartitions_eq_insertAll (results : List (List Paper)) :
    mergePartitions results = insertAllById [] results.flatten := by
  suffices h : ∀ d : List (String × Paper),
      results.foldl (fun d ps => ps.foldl (fun d p => dictInsert d p.entry_id p) d) d =
        insertAllById d results.flatten from h []
  induction results with
  | nil => intro d; rfl
  | cons ps rest ih =>
    intro d
    show rest.foldl _ (ps.foldl _ d) = insertAllById d ((ps ++ rest.flatten))
    rw [ih (ps.foldl (fun d p => dictInsert d p.entry_id p) d)]
    unfold insertAllById
    rw [List.foldl_append]

theorem nodup_dictKeys_insertAllById (s : List Paper)
    (d : List (String × Paper)) (h : (dictKeys d).Nodup) :
    (dictKeys (insertAllById d s)).Nodup := by
  induction s generalizing d with
  | nil => exact h
  | cons p t ih =>
    exact ih (dictInsert d p.entry_id p) (nodup_dictKeys_dictInsert _ _ h)

theorem dictGet_insertAllById (s : List Paper) (d : List (String × Paper))
    (k : String) :
    dictGet (insertAllById d s) k =
      (s.reverse.find? (fun q => decide (q.entry_id = k))).or (dictGet d k) := by
  induction s generalizing d with
  | nil => simp [insertAllById]
  | cons p t ih =>
    show dictGet (insertAllById (dictInsert d p.entry_id p) t) k = _
    rw [ih (dictInsert d p.entry_id p)]
    have hstep : dictGet (dictInsert d p.entry_id p) k =
        if p.entry_id = k then some p else dictGet d k := by
      by_cases h : p.entry_id = k
      · subst h
        rw [if_pos rfl]
        exact dictGet_dictInsert_self d p.entry_id p
      · rw [if_neg h]
        exact dictGet_dictInsert_ne d p (fun hk => h hk.symm)
    rw [hstep, List.reverse_cons, List.find?_append]
    by_cases h : p.entry_id = k
    · simp [h, Option.or_assoc]
    · simp [h, Option.or_assoc]

theorem entry_id_of_mem_insertAllById {s : List Paper}
    {d : List (String × Paper)} {pr : String × Paper}
    (hd : ∀ pr2 ∈ d, (pr2.2).entry_id = pr2.1)
    (hm : pr ∈ insertAllById d s) : (pr.2).entry_id = pr.1 := by
  induction s generalizing d with
  | nil => exact hd pr hm
  | cons p t ih =>
    refine ih (d := dictInsert d p.entry_id p) ?_ hm
    intro pr2 hpr2
    obtain ⟨k2, v2⟩ := pr2
    rcases mem_dictInsert_elim hpr2 with ⟨hk, hv⟩ | hmem
    · subst hk
      subst hv
      rfl
    · exact hd _ hmem

/-- C9: every corpus build merges the per-partition results into one
record per identifier: identifiers in the merged corpus are unique, the
record kept for an identifier is the LAST one carrying it in the
insertion stream (later insertions overwrite earlier ones), and every
streamed identifier is represented. -/
theorem c9_corpus_dedup (results : List (List Paper)) :
    ((fetch_past_papers results).map Paper.entry_id).Nodup ∧
    (∀ p ∈ fetch_past_papers results,
      results.flatten.reverse.find?
        (fun q => decide (q.entry_id = p.entry_id)) = some p) ∧
    (∀ q ∈ results.flatten,
      ∃ p ∈ fetch_past_papers results, p.entry_id = q.entry_id) := by
  have hD : mergePartitions results = insertAllById [] results.flatten :=
    mergePartitions_eq_insertAll results
  have hinv : ∀ pr ∈ mergePartitions results, (pr.2).entry_id = pr.1 := by
    intro pr hpr
    rw [hD] at hpr
    exact entry_id_of_mem_insertAllById (by intro pr2 h2; cases h2) hpr
  have hnd : (dictKeys (mergePartitions results)).Nodup := by
    rw [hD]
    exact nodup_dictKeys_insertAllById _ _ (by simp [dictKeys])
  have hget : ∀ k, dictGet (mergePartitions results) k =
      results.flatten.reverse.find? (fun q => decide (q.entry_id = k)) := by
    intro k
    rw [hD, dictGet_insertAllById]
    simp [dictGet]
  refine ⟨?_, ?_, ?_⟩
  · have hmapeq : (fetch_past_papers results).map Paper.entry_id =
        dictKeys (mergePartitions results) := by
      unfold fetch_past_papers dictKeys
      rw [List.map_map]
      refine List.map_congr_left ?_
      intro pr hpr
      simpa using hinv pr hpr
    rw [hmapeq]
    exact hnd
  · intro p hp
    obtain ⟨pr, hpr, hsnd⟩ := List.mem_map.mp hp
    have hid : (pr.2).entry_id = pr.1 := hinv pr hpr
    have hget2 : dictGet (mergePartitions results) pr.1 = some pr.2 := by
      obtain ⟨k, v⟩ := pr
      exact dictGet_eq_some_of_mem hnd hpr
    rw [hget pr.1] at hget2
    rw [← hsnd, hid]
    exact hget2
  · intro q hq
    have hfind : (results.flatten.reverse.find?
        (fun r => decide (r.entry_id = q.entry_id))).isSome := by
      rw [List.find?_isSome]
      exact ⟨q, by simpa using hq, by simp⟩
    rw [← hget q.entry_id] at hfind
    obtain ⟨v, hv⟩ := Option.isSome_iff_exists.mp hfind
    have hmem : (q.entry_id, v) ∈ mergePartitions results :=
      mem_of_dictGet_eq_some hv
    refine ⟨v, List.mem_map_of_mem Prod.snd hmem, ?_⟩
    exact hinv _ hmem

/-!
Counting lemmas for the keyword frequency table of
`calculate_trending_keywords`.
-/

/-- Token stream scanned by the keyword counter: for each record in
order, its tokens longer than 4 characters, in order. -/
def trendStream (papers : List Paper) : List String :=
  papers.flatMap (fun p => (paperWords p).filter (fun w => decide (4 < w.length)))

/-- Folding the counter increment over a token stream. -/
def countAll (d : List (String × ℕ)) (s : List String) : List (String × ℕ) :=
  s.foldl dictIncr d

theorem foldl_ite_filter {α β : Type} (f : β → α → β) (p : α → Prop)
    [DecidablePred p] (l : List α) (b : β) :
    l.foldl (fun acc x => if p x then f acc x else acc) b =
      (l.filter (fun x => decide (p x))).foldl f b := by
  induction l generalizing b with
  | nil => rfl
  | cons hd t ih =>
    by_cases h : p hd
    · simp [List.filter_cons, h, ih]
    · simp [List.filter_cons, h, ih]

theorem keyword_counts_eq_countAll (papers : List Paper) :
    keyword_counts papers = countAll [] (trendStream papers) := by
  suffices h : ∀ d : List (String × ℕ),
      papers.foldl
        (fun d p =>
          (paperWords p).foldl
            (fun d w => if 4 < w.length then dictIncr d w else d) d) d =
        countAll d (trendStream papers) from h []
  induction papers with
  | nil => intro d; rfl
  | cons p t ih =>
    intro d
    show t.foldl _ ((paperWords p).foldl _ d) = countAll d (trendStream (p :: t))
    rw [ih]
    unfold trendStream countAll
    rw [List.flatMap_cons, List.foldl_append]
    rw [foldl_ite_filter dictIncr (fun w => 4 < w.length)]

theorem dictGet_countAll (s : List String) (d : List (String × ℕ))
    (w : String) :
    dictGet (countAll d s) w =
      if w ∈ s then some ((dictGet d w).getD 0 + s.count w)
      else dictGet d w := by
  induction s generalizing d with
  | nil => simp [countAll]
  | cons x t ih =>
    show dictGet (countAll (dictIncr d x) t) w = _
    rw [ih]
    by_cases hxw : w = x
    · subst hxw
      have hget : dictGet (dictIncr d w) w =
          some ((dictGet d w).getD 0 + 1) :=
        dictGet_dictInsert_self d w _
      by_cases hmt : w ∈ t
      · rw [if_pos hmt, if_pos (List.mem_cons_self w t), hget]
        simp only [Option.getD_some, Option.some.injEq, List.count_cons_self]
        omega
      · rw [if_neg hmt, if_pos (List.mem_cons_self w t), hget]
        have hz : t.count w = 0 := List.count_eq_zero.mpr hmt
        simp only [Option.some.injEq, List.count_cons_self, hz]
    · have hgd : dictGet (dictIncr d x) w = dictGet d w :=
        dictGet_dictInsert_ne d _ hxw
      have hxw2 : ¬(x = w) := fun he => hxw he.symm
      have hcnt : (x :: t).count w = t.count w := by
        simp [List.count_cons, hxw2]
      by_cases hmt : w ∈ t
      · rw [if_pos hmt, if_pos (by simp [hmt]), hgd, hcnt]
      · rw [if_neg hmt, if_neg (by simp [hmt, hxw]), hgd]

theorem nodup_dictKeys_countAll (s : List String) (d : List (String × ℕ))
    (h : (dictKeys d).Nodup) : (dictKeys (countAll d s)).Nodup := by
  induction s generalizing d with
  | nil => exact h
  | cons x t ih =>
    exact ih (dictIncr d x) (nodup_dictKeys_dictInsert _ _ h)

theorem mem_dictKeys_countAll (s : List String) (d : List (String × ℕ))
    (w : String) :
    w ∈ dictKeys (countAll d s) ↔ w ∈ dictKeys d ∨ w ∈ s := by
  induction s generalizing d with
  | nil => simp [countAll]
  | cons x t ih =>
    show w ∈ dictKeys (countAll (dictIncr d x) t) ↔ _
    rw [ih]
    have hstep : w ∈ dictKeys (dictIncr d x) ↔ w ∈ dictKeys d ∨ w = x := by
      unfold dictIncr
      rw [dictKeys_dictInsert]
      by_cases hm : x ∈ dictKeys d
      · rw [if_pos hm]
        exact ⟨Or.inl, fun h => h.elim id (fun he => he ▸ hm)⟩
      · rw [if_neg hm]
        simp [List.mem_append]
    rw [hstep]
    simp only [List.mem_cons]
    tauto

theorem pairwise_indexOf_dictKeys_countAll (s : List String) :
    (dictKeys (countAll [] s)).Pairwise
      (fun a b => s.indexOf a < s.indexOf b) := by
  induction s using List.reverseRecOn with
  | nil => simp [countAll, dictKeys]
  | append_singleton s w ih =>
    have hstep : countAll [] (s ++ [w]) = dictIncr (countAll [] s) w := by
      unfold countAll
      rw [List.foldl_append]
      rfl
    have hmemkeys : ∀ a ∈ dictKeys (countAll [] s), a ∈ s := by
      intro a ha
      rcases (mem_dictKeys_countAll s [] a).mp ha with h | h
      · simp [dictKeys] at h
      · exact h
    rw [hstep]
    unfold dictIncr
    rw [dictKeys_dictInsert]
    by_cases hm : w ∈ dictKeys (countAll [] s)
    · rw [if_pos hm]
      refine List.Pairwise.imp_of_mem ?_ ih
      intro a b ha hb hr
      rw [List.indexOf_append_of_mem (hmemkeys a ha),
        List.indexOf_append_of_mem (hmemkeys b hb)]
      exact hr
    · rw [if_neg hm]
      have hws : w ∉ s := fun hws =>
        hm ((mem_dictKeys_countAll s [] w).mpr (Or.inr hws))
      rw [List.pairwise_append]
      refine ⟨?_, List.pairwise_singleton _ _, ?_⟩
      · refine List.Pairwise.imp_of_mem ?_ ih
        intro a b ha hb hr
        rw [List.indexOf_append_of_mem (hmemkeys a ha),
          List.indexOf_append_of_mem (hmemkeys b hb)]
        exact hr
      · intro a ha b hb
        have hb2 : b = w := by simpa using hb
        subst hb2
        rw [List.indexOf_append_of_mem (hmemkeys a ha),
          List.indexOf_append_of_not_mem hws]
        have h1 : s.indexOf a < s.length :=
          List.indexOf_lt_length.mpr (hmemkeys a ha)
        simp only [List.indexOf_cons_self]
        omega

/-!
Order helpers: locating two members of a list as a pair sublist, and the
strict index order a pair sublist induces on a duplicate-free list.
-/

theorem pair_sublist_of_mem {α : Type} {l : List α} {a b : α}
    (ha : a ∈ l) (hb : b ∈ l) (hne : a ≠ b) :
    [a, b].Sublist l ∨ [b, a].Sublist l := by
  induction l with
  | nil => cases ha
  | cons x t ih =>
    rcases List.mem_cons.mp ha with heq | hat
    · subst heq
      have hbt : b ∈ t := by
        rcases List.mem_cons.mp hb with heq2 | h
        · exact absurd heq2.symm hne
        · exact h
      exact Or.inl ((List.singleton_sublist.mpr hbt).cons₂ a)
    · rcases List.mem_cons.mp hb with heq | hbt
      · subst heq
        exact Or.inr ((List.singleton_sublist.mpr hat).cons₂ b)
      · rcases ih hat hbt with h | h
        · exact Or.inl (h.cons x)
        · exact Or.inr (h.cons x)

theorem indexOf_lt_of_pair_sublist {α : Type} [DecidableEq α]
    {l : List α} {a b : α} (hnd : l.Nodup) (h : [a, b].Sublist l) :
    l.indexOf a < l.indexOf b := by
  induction l with
  | nil => cases h
  | cons x t ih =>
    obtain ⟨hx, hndt⟩ := List.nodup_cons.mp hnd
    cases h with
    | cons _ h2 =>
      have ha : a ∈ t := h2.subset (by simp)
      have hb : b ∈ t := h2.subset (by simp)
      have hxa : x ≠ a := fun he => hx (he ▸ ha)
      have hxb : x ≠ b := fun he => hx (he ▸ hb)
      rw [List.indexOf_cons_ne _ hxa, List.indexOf_cons_ne _ hxb]
      exact Nat.succ_lt_succ (ih hndt h2)
    | cons₂ _ h2 =>
      have hb : b ∈ t := List.singleton_sublist.mp h2
      have hab : a ≠ b := fun he => hx (he ▸ hb)
      rw [List.indexOf_cons_self, List.indexOf_cons_ne _ hab]
      exact Nat.succ_pos _

/-- C6: `calculate_trending_keywords` returns at most 50 pairwise-distinct
keywords; each is a token longer than 4 characters of some record's
lower-cased whitespace-split title+abstract; the output is ordered by
descending stream frequency with equal counts ordered by first occurrence
in the scanned token stream; and any counted token left out loses against
every kept keyword (higher count, or equal count and seen earlier), which
can only happen when all 50 slots are filled. -/
theorem c6_trending_keywords (papers : List Paper) :
    (calculate_trending_keywords papers).length ≤ 50 ∧
    (∀ w ∈ calculate_trending_keywords papers,
      4 < w.length ∧ ∃ p ∈ papers, w ∈ paperWords p) ∧
    (calculate_trending_keywords papers).Nodup ∧
    (calculate_trending_keywords papers).Pairwise
      (fun a b =>
        (trendStream papers).count b < (trendStream papers).count a ∨
        ((trendStream papers).count a = (trendStream papers).count b ∧
          (trendStream papers).indexOf a < (trendStream papers).indexOf b)) ∧
    (∀ w ∈ trendStream papers, w ∉ calculate_trending_keywords papers →
      (calculate_trending_keywords papers).length = 50 ∧
      ∀ v ∈ calculate_trending_keywords papers,
        (trendStream papers).count w < (trendStream papers).count v ∨
        ((trendStream papers).count v = (trendStream papers).count w ∧
          (trendStream papers).indexOf v < (trendStream papers).indexOf w)) := by
  set stream := trendStream papers with hstream
  set cs := keyword_counts papers with hcsdef
  have hcseq : cs = countAll [] stream := keyword_counts_eq_countAll papers
  set le := fun (a b : String × ℕ) => decide (b.2 ≤ a.2) with hle
  have htrans : ∀ (a b c : String × ℕ),
      le a b = true → le b c = true → le a c = true := by
    intro a b c hab hbc
    simp only [hle, decide_eq_true_eq] at hab hbc ⊢
    omega
  have htotal : ∀ (a b : String × ℕ), (le a b || le b a) = true := by
    intro a b
    simp only [hle, Bool.or_eq_true, decide_eq_true_eq]
    omega
  set sorted := cs.mergeSort le with hsorteddef
  have hks : calculate_trending_keywords papers =
      (sorted.take 50).map Prod.fst := rfl
  have hndkeys : (dictKeys cs).Nodup := by
    rw [hcseq]
    exact nodup_dictKeys_countAll _ _ (by simp [dictKeys])
  have hndcs : cs.Nodup := List.Nodup.of_map Prod.fst hndkeys
  have hperm : sorted.Perm cs := List.mergeSort_perm cs le
  have hndsorted : sorted.Nodup := hperm.nodup_iff.mpr hndcs
  have hmemcs : ∀ pr ∈ cs, pr.1 ∈ stream ∧ pr.2 = stream.count pr.1 := by
    intro pr hpr
    have hget : dictGet cs pr.1 = some pr.2 := by
      obtain ⟨k, v⟩ := pr
      exact dictGet_eq_some_of_mem hndkeys hpr
    rw [hcseq, dictGet_countAll] at hget
    by_cases hm : pr.1 ∈ stream
    · rw [if_pos hm] at hget
      refine ⟨hm, ?_⟩
      have : (dictGet ([] : List (String × ℕ)) pr.1).getD 0 + stream.count pr.1 =
          pr.2 := by
        exact Option.some.inj hget
      simpa [dictGet] using this.symm
    · rw [if_neg hm] at hget
      cases hget
  have hkeysPW : (dictKeys cs).Pairwise
      (fun a b => stream.indexOf a < stream.indexOf b) := by
    rw [hcseq]
    exact pairwise_indexOf_dictKeys_countAll stream
  have hcsPW : cs.Pairwise
      (fun pr qr => stream.indexOf pr.1 < stream.indexOf qr.1) := by
    have h2 := hkeysPW
    unfold dictKeys at h2
    rw [List.pairwise_map] at h2
    exact h2
  have hsortedLE : sorted.Pairwise (fun a b => le a b = true) :=
    List.sorted_mergeSort htrans htotal cs
  have hsortedR : sorted.Pairwise (fun pr qr =>
      stream.count qr.1 < stream.count pr.1 ∨
      (stream.count pr.1 = stream.count qr.1 ∧
        stream.indexOf pr.1 < stream.indexOf qr.1)) := by
    rw [List.pairwise_iff_forall_sublist]
    intro pr qr hsub
    have hle2 : qr.2 ≤ pr.2 := by
      have h2 := List.pairwise_iff_forall_sublist.mp hsortedLE hsub
      simpa [hle] using h2
    have hprcs : pr ∈ cs := hperm.mem_iff.mp (hsub.subset (by simp))
    have hqrcs : qr ∈ cs := hperm.mem_iff.mp (hsub.subset (by simp))
    obtain ⟨hprs, hprc⟩ := hmemcs pr hprcs
    obtain ⟨hqrs, hqrc⟩ := hmemcs qr hqrcs
    by_cases hcnt : qr.2 < pr.2
    · exact Or.inl (by rw [← hprc, ← hqrc]; exact hcnt)
    · have heq : pr.2 = qr.2 := le_antisymm (not_lt.mp hcnt) hle2
      have hne : pr ≠ qr := by
        intro he
        subst he
        exact List.nodup_iff_sublist.mp hndsorted pr hsub
      refine Or.inr ⟨by rw [← hprc, ← hqrc, heq], ?_⟩
      rcases pair_sublist_of_mem hprcs hqrcs hne with hp | hp
      · exact List.pairwise_iff_forall_sublist.mp hcsPW hp
      · exfalso
        have hle3 : le qr pr = true := by
          simp only [hle, decide_eq_true_eq]
          omega
        have hst : [qr, pr].Sublist sorted :=
          List.pair_sublist_mergeSort htrans htotal hle3 hp
        have h1 := indexOf_lt_of_pair_sublist hndsorted hsub
        have h2 := indexOf_lt_of_pair_sublist hndsorted hst
        omega
  refine ⟨?_, ?_, ?_, ?_, ?_⟩
  · rw [hks]
    simp only [List.length_map, List.length_take]
    exact min_le_left _ _
  · intro w hw
    rw [hks] at hw
    obtain ⟨pr, hprtake, hfst⟩ := List.mem_map.mp hw
    have hprs : pr ∈ sorted := List.mem_of_mem_take hprtake
    have hprcs : pr ∈ cs := hperm.mem_iff.mp hprs
    have hmem := (hmemcs pr hprcs).1
    rw [hfst] at hmem
    rw [hstream] at hmem
    obtain ⟨p, hp, hwp⟩ := List.mem_flatMap.mp hmem
    obtain ⟨hwords, hlen⟩ := List.mem_filter.mp hwp
    exact ⟨by simpa using hlen, p, hp, hwords⟩
  · rw [hks]
    have h1 : (sorted.map Prod.fst).Nodup :=
      ((hperm.map Prod.fst).nodup_iff).mpr (by simpa [dictKeys] using hndkeys)
    have h2 : ((sorted.take 50).map Prod.fst).Sublist (sorted.map Prod.fst) :=
      (List.take_sublist _ _).map Prod.fst
    exact h1.sublist h2
  · rw [hks]
    rw [List.pairwise_map]
    exact List.Pairwise.sublist (List.take_sublist _ _) hsortedR
  · intro w hws hwk
    have hget : dictGet cs w = some (stream.count w) := by
      rw [hcseq, dictGet_countAll, if_pos hws]
      simp [dictGet]
    have hwcs : (w, stream.count w) ∈ cs := mem_of_dictGet_eq_some hget
    have hwsorted : (w, stream.count w) ∈ sorted := hperm.mem_iff.mpr hwcs
    have hwnotake : (w, stream.count w) ∉ sorted.take 50 := by
      intro hmem
      exact hwk (by rw [hks]; exact List.mem_map_of_mem Prod.fst hmem)
    have hwdrop : (w, stream.count w) ∈ sorted.drop 50 := by
      have hsplit : sorted.take 50 ++ sorted.drop 50 = sorted :=
        List.take_append_drop 50 sorted
      rcases List.mem_append.mp (by rw [hsplit]; exact hwsorted) with h | h
      · exact absurd h hwnotake
      · exact h
    constructor
    · have hlendrop : sorted.drop 50 ≠ [] := by
        intro he
        rw [he] at hwdrop
        cases hwdrop
      have hlong : 50 < sorted.length := by
        by_contra hle
        push_neg at hle
        exact hlendrop (List.drop_eq_nil_of_le hle)
      rw [hks]
      simp only [List.length_map, List.length_take]
      omega
    · intro v hv
      rw [hks] at hv
      obtain ⟨pr, hprtake, hfst⟩ := List.mem_map.mp hv
      have hsubpair : [pr, (w, stream.count w)].Sublist sorted := by
        have h1 : [pr].Sublist (sorted.take 50) :=
          List.singleton_sublist.mpr hprtake
        have h2 : [(w, stream.count w)].Sublist (sorted.drop 50) :=
          List.singleton_sublist.mpr hwdrop
        have h3 := h1.append h2
        rwa [List.take_append_drop] at h3
      have hrel := List.pairwise_iff_forall_sublist.mp hsortedR hsubpair
      rw [hfst] at hrel
      simpa using hrel

end ArxivDaily
